import Mathlib

/-!
# xatu `Exciton`: configuration, pair basis and band dictionary

A shallow embedding of `src/Exciton.cpp`.  The C++ object is an explicit record
`Exciton`; every member function becomes a function on that record.  Integer
band labels, k-point indices and counters are mathematical integers (the source
never relies on wrap-around).  Real-valued members (`Q_`, `cutoff_`,
`scissor_`) are only compared and stored by the setters, so they are carried as
rationals.  Armadillo column vectors are lists, the `n x 3` integer matrix of
basis states is a list of triples, and `std::map<int,int>` is an association
list kept in strictly increasing key order.
-/

namespace xatu

/-! ## Data model -/

/-- The part of `System` that `Exciton.cpp` reads: `system->fermiLevel` and `system->nk`. -/
structure System where
  fermiLevel : Int
  nk : Int
  deriving DecidableEq, Repr

/-- One row `{v, c, k}` of the `arma::imat` of basis states (three columns). -/
abbrev BasisState := Int × Int × Int

/-- A `std::map<int,int>`: its entries `(key, value)` in iteration (increasing key) order. -/
abbrev BandMap := List (Int × Int)

/-- The members of `Exciton` that `Exciton.cpp` reads or writes.  The header's read-only
accessors `ncell`, `valenceBands`, `conductionBands` alias the underscored members. -/
structure Exciton where
  system : System
  ncell_ : Int
  bands_ : List Int
  valenceBands_ : List Int
  conductionBands_ : List Int
  Q_ : List ℚ
  cutoff_ : ℚ
  scissor_ : ℚ
  exchange : Bool
  excitonbasisdim : Nat
  basisStates_ : List BasisState
  bandList : List Int
  bandToIndex : BandMap
  deriving DecidableEq

/-! ## Armadillo and standard-library primitives used by the source -/

/-- Armadillo `regspace<ivec>(start, end)` with its default step: `start, start+1, .., end`
when `start ≤ end`, and `start, start-1, .., end` (step `-1`) when `start > end`. -/
def regspace (start stop : Int) : List Int :=
  if start ≤ stop then (List.range (stop - start + 1).toNat).map (fun (i : Nat) => start + (i : Int))
  else (List.range (start - stop + 1).toNat).map (fun (i : Nat) => start - (i : Int))

/-- Assignment `m[k] = v` on a `std::map<int,int>`: overwrite the value when the key is
present, insert a new entry at its ordered position otherwise. -/
def BandMap.assign : BandMap → Int → Int → BandMap
  | [], k, v => [(k, v)]
  | (k', v') :: rest, k, v =>
    if k < k' then (k, v) :: (k', v') :: rest
    else if k = k' then (k, v) :: rest
    else (k', v') :: BandMap.assign rest k v

/-- The keys of a map, in iteration order. -/
def BandMap.keys (m : BandMap) : List Int := m.map Prod.fst

/-- The stored values of a map, in iteration order. -/
def BandMap.values (m : BandMap) : List Int := m.map Prod.snd

/-- Non-inserting search (`std::map::find`): the value stored under `k`, if any. -/
def BandMap.find : BandMap → Int → Option Int
  | [], _ => none
  | (k', v') :: rest, k => if k = k' then some v' else BandMap.find rest k

/-! ## Setters -/

/-- `Exciton::setUnitCells(int ncell)`; the second component is what is printed. -/
def setUnitCells (e : Exciton) (ncell : Int) : Exciton × List String :=
  if ncell > 0 then
    ({ e with ncell_ := ncell }, [])
  else
    (e, ["ncell must be a positive number"])

/-- The loop of `Exciton::setBands(const arma::ivec&)`: one pass over `bands`, pushing
`bands(i) + fermiLevel` to the back of `valence` or of `conduction`. -/
def setBandsLoop (fermiLevel : Int) : List Int → List Int × List Int → List Int × List Int
  | [], acc => acc
  | b :: rest, (valence, conduction) =>
    if b ≤ 0 then
      setBandsLoop fermiLevel rest (valence ++ [b + fermiLevel], conduction)
    else
      setBandsLoop fermiLevel rest (valence, conduction ++ [b + fermiLevel])

/-- `Exciton::setBands(const arma::ivec& bands)`. -/
def setBands (e : Exciton) (bands : List Int) : Exciton :=
  let vc := setBandsLoop e.system.fermiLevel bands ([], [])
  { e with bands_ := bands, valenceBands_ := vc.1, conductionBands_ := vc.2 }

/-- `Exciton::setBands(int nbands, int nrmbands)`.  `joinRows` stands for Armadillo's
`join_rows` followed by the assignment to the column vector `bands_`; only `bands_`
depends on it, and `valenceBands_` and `conductionBands_` are assigned before that
statement runs.  The second component is what is printed. -/
def setBands2 (joinRows : List Int → List Int → List Int) (e : Exciton)
    (nbands nrmbands : Int) : Exciton × List String :=
  let fermiLevel := e.system.fermiLevel
  if nbands > 0 ∧ nrmbands > 0 then
    let e1 := { e with valenceBands_ := regspace (fermiLevel - nbands + 1) (fermiLevel - nrmbands) }
    let e2 := { e1 with conductionBands_ := regspace (fermiLevel + 1 + nrmbands) (fermiLevel + nbands) }
    ({ e2 with bands_ := joinRows e2.valenceBands_ e2.conductionBands_ }, [])
  else
    (e, ["Included bands and removed bands must be positive numbers"])

/-- `Exciton::setQ(const arma::rowvec& Q)`. -/
def setQ (e : Exciton) (Q : List ℚ) : Exciton × List String :=
  if Q.length = 3 then
    ({ e with Q_ := Q }, [])
  else
    (e, ["Q vector must be 3d"])

/-- `Exciton::setCutoff(double cutoff)`. -/
def setCutoff (e : Exciton) (cutoff : ℚ) : Exciton × List String :=
  if cutoff > 0 then
    let e1 := { e with cutoff_ := cutoff }
    if cutoff > (e1.ncell_ : ℚ) then
      (e1, ["Warning: cutoff is higher than number of unit cells"])
    else
      (e1, [])
  else
    (e, ["cutoff must be a positive number"])

/-- `Exciton::setScissor(double shift)`. -/
def setScissor (e : Exciton) (shift : ℚ) : Exciton :=
  { e with scissor_ := shift }

/-- `Exciton::setExchange(bool exchange)`. -/
def setExchange (e : Exciton) (exchange : Bool) : Exciton :=
  { e with exchange := exchange }

/-! ## Electron-hole pair basis -/

/-- The loop state of `createBasis`: the matrix `states` and the row counter `it`. -/
abbrev BasisLoop := List BasisState × Nat

/-- The statements `states.row(it) = state; it++;`.  Armadillo bounds-checks `row(it)`:
an index past the last row raises an error, modelled by `none`. -/
def writeRow (st : BasisLoop) (state : BasisState) : Option BasisLoop :=
  if st.2 < st.1.length then some (st.1.set st.2 state, st.2 + 1) else none

/-- Innermost loop of `createBasis`, over the valence bands `valenceBands(j)`. -/
def valenceLoop (i : Int) (c : Int) : List Int → BasisLoop → Option BasisLoop
  | [], st => some st
  | v :: rest, st => (writeRow st (v, c, i)).bind (valenceLoop i c rest)

/-- Middle loop of `createBasis`, over the conduction bands `conductionBands(k)`. -/
def conductionLoop (i : Int) (valenceBands : List Int) : List Int → BasisLoop → Option BasisLoop
  | [], st => some st
  | c :: rest, st => (valenceLoop i c valenceBands st).bind (conductionLoop i valenceBands rest)

/-- Outer loop of `createBasis`, over the k-point indices `i = 0, .., nk - 1`. -/
def kLoop (conductionBands valenceBands : List Int) : List Nat → BasisLoop → Option BasisLoop
  | [], st => some st
  | i :: rest, st =>
    (conductionLoop (i : Int) valenceBands conductionBands st).bind
      (kLoop conductionBands valenceBands rest)

/-- `Exciton::createBasis(conductionBands, valenceBands)`: the returned matrix together with
the object after `basisStates_ = states`; `none` when a row write is out of bounds. -/
def createBasis (e : Exciton) (conductionBands valenceBands : List Int) :
    Option (List BasisState × Exciton) :=
  let states : List BasisState := List.replicate e.excitonbasisdim (0, 0, 0)
  match kLoop conductionBands valenceBands (List.range e.system.nk.toNat) (states, 0) with
  | none => none
  | some (states, _) => some (states, { e with basisStates_ := states })

/-! ## Band dictionary -/

/-- The loop of `generateBandDictionary`: `bandToIndex[bandList(i)] = i` for the remaining
entries of `bandList`, `i` being the position of the first of them.  Labels are band
indices and are taken to fit the `int` key of the map. -/
def bandDictionaryLoop : List Int → Nat → BandMap → BandMap
  | [], _, m => m
  | b :: rest, i, m => bandDictionaryLoop rest (i + 1) (m.assign b (i : Int))

/-- `Exciton::generateBandDictionary()`. -/
def generateBandDictionary (e : Exciton) : Exciton :=
  { e with bandToIndex := bandDictionaryLoop e.bandList 0 [] }

/-! ## Sample objects and the band lookup -/

/-- A sample object: Fermi level `5`, two k-points, everything else blank. -/
def sample : Exciton :=
  { system := { fermiLevel := 5, nk := 2 }, ncell_ := 10, bands_ := [], valenceBands_ := [],
    conductionBands_ := [], Q_ := [0, 0, 0], cutoff_ := 5, scissor_ := 0, exchange := false,
    excitonbasisdim := 4, basisStates_ := [], bandList := [], bandToIndex := [] }

/-- The sample object with a stored basis dimension of `6`, larger than `2 * 2 * 1`. -/
def sampleWide : Exciton := { sample with excitonbasisdim := 6 }

/-- The sample object after `setBands` on the labels `0, 1, 1` (label `1` given twice). -/
def sampleRepeated : Exciton := setBands sample [0, 1, 1]

/-- The sample object with the band list `7, 3, 9`. -/
def sampleList : Exciton := { sample with bandList := [7, 3, 9] }

/-- The sample object with the band list `7, 7` (label `7` given twice). -/
def sampleTwice : Exciton := { sample with bandList := [7, 7] }

/-- The error of a band lookup. -/
inductive LookupError where
  | MissingBand
  deriving DecidableEq, Repr

/-- Modelled from the spec: the lookup of a label in the band dictionary.  `Exciton.cpp` only
builds `bandToIndex`; the code that queries it is not in this file.  The spec (sections 4.3
and 7) has the lookup of an unregistered label signal `MissingBand` to the caller instead of
returning a default or zero index, and has a registered label return its slot. -/
def lookupBand (m : BandMap) (label : Int) : Except LookupError Int :=
  match BandMap.find m label with
  | some slot => Except.ok slot
  | none => Except.error LookupError.MissingBand

/-- The sample object after `setBands` on the labels `-1, 1, 2`. -/
def sampleBands : Exciton := setBands sample [-1, 1, 2]

/-! ## Reference enumerations used in the statements -/

/-- Writing a list of rows one after the other, as `createBasis` does row by row. -/
def writeRows : List BasisState → BasisLoop → Option BasisLoop
  | [], st => some st
  | r :: rest, st => (writeRow st r).bind (writeRows rest)

/-- The rows in the order k outermost, conduction in the middle, valence innermost. -/
def basisRows (nk : Nat) (conductionBands valenceBands : List Int) : List BasisState :=
  (List.range nk).flatMap fun (i : Nat) =>
    conductionBands.flatMap fun c => valenceBands.map fun v => (v, c, (i : Int))

/-- The enumerated rows followed by the rows of the zero matrix that no write reaches. -/
def paddedRows (dim nk : Nat) (conductionBands valenceBands : List Int) : List BasisState :=
  basisRows nk conductionBands valenceBands ++
    List.replicate (dim - nk * conductionBands.length * valenceBands.length) (0, 0, 0)

/-! ## `createBasis` with the row writes recorded -/

/-- The loop state of `createBasis` together with the indices `it` of the row writes
`states.row(it)` made so far, oldest first. -/
abbrev BasisTrace := BasisLoop × List Nat

/-- The statements `states.row(it) = state; it++;`, recording the index `it` written. -/
def writeRowTraced (st : BasisTrace) (state : BasisState) : Option BasisTrace :=
  if st.1.2 < st.1.1.length then
    some ((st.1.1.set st.1.2 state, st.1.2 + 1), st.2 ++ [st.1.2])
  else none

/-- Innermost loop of `createBasis`, over the valence bands, with the writes recorded. -/
def valenceLoopTraced (i : Int) (c : Int) : List Int → BasisTrace → Option BasisTrace
  | [], st => some st
  | v :: rest, st => (writeRowTraced st (v, c, i)).bind (valenceLoopTraced i c rest)

/-- Middle loop of `createBasis`, over the conduction bands, with the writes recorded. -/
def conductionLoopTraced (i : Int) (valenceBands : List Int) :
    List Int → BasisTrace → Option BasisTrace
  | [], st => some st
  | c :: rest, st =>
    (valenceLoopTraced i c valenceBands st).bind (conductionLoopTraced i valenceBands rest)

/-- Outer loop of `createBasis`, over the k-point indices, with the writes recorded. -/
def kLoopTraced (conductionBands valenceBands : List Int) :
    List Nat → BasisTrace → Option BasisTrace
  | [], st => some st
  | i :: rest, st =>
    (conductionLoopTraced (i : Int) valenceBands conductionBands st).bind
      (kLoopTraced conductionBands valenceBands rest)

/-- The run of `Exciton::createBasis(conductionBands, valenceBands)` up to the end of its
loops: the matrix `states`, the final value of the counter `it`, and the indices of the row
writes in the order they were made; `none` when a row write is out of bounds. -/
def createBasisTraced (e : Exciton) (conductionBands valenceBands : List Int) :
    Option BasisTrace :=
  let states : List BasisState := List.replicate e.excitonbasisdim (0, 0, 0)
  kLoopTraced conductionBands valenceBands (List.range e.system.nk.toNat) ((states, 0), [])

/-- Writing a list of rows one after the other, with the writes recorded. -/
def writeRowsTraced : List BasisState → BasisTrace → Option BasisTrace
  | [], st => some st
  | r :: rest, st => (writeRowTraced st r).bind (writeRowsTraced rest)

/-! ## Global phase of the eigenvectors

`fixGlobalPhase` is taken over the exact complex numbers: `std::arg` is `Complex.arg`
(values in `(-π, π]`, and `0` at `0`) and `std::exp` is `Complex.exp`. -/

/-- An `arma::cx_mat` with `m` rows and `n` columns; `coefs i j` is `coefs(i, j)`. -/
abbrev CxMat (m n : Nat) := Matrix (Fin m) (Fin n) ℂ

/-- The call `arma::sum(coefs)`: the row vector of the sums of the columns. -/
noncomputable def colSums {m n : Nat} (coefs : CxMat m n) : Fin n → ℂ :=
  fun j => ∑ i, coefs i j

/-- The statement `coefs.col(j) *= z`. -/
noncomputable def scaleCol {m n : Nat} (coefs : CxMat m n) (j : Fin n) (z : ℂ) : CxMat m n :=
  fun i j2 => if j2 = j then coefs i j2 * z else coefs i j2

/-- The loop of `fixGlobalPhase` over the remaining columns `j`: `phase = arg(sums(j))`
followed by `coefs.col(j) *= exp(-imag*phase)`. -/
noncomputable def fixGlobalPhaseLoop {m n : Nat} (sums : Fin n → ℂ) :
    List (Fin n) → CxMat m n → CxMat m n
  | [], coefs => coefs
  | j :: rest, coefs =>
    let phase : ℝ := Complex.arg (sums j)
    fixGlobalPhaseLoop sums rest (scaleCol coefs j (Complex.exp (-Complex.I * (phase : ℂ))))

/-- `Exciton::fixGlobalPhase(arma::cx_mat& coefs)`: the sums are taken once, before the loop
over `j = 0, .., sums.n_elem - 1`. -/
noncomputable def fixGlobalPhase {m n : Nat} (coefs : CxMat m n) : CxMat m n :=
  let sums := colSums coefs
  fixGlobalPhaseLoop sums (List.finRange n) coefs

/-- The one-column matrix with the column `1 + i, -1 + i`. -/
noncomputable def sampleColumn : CxMat 2 1 :=
  fun i _ => if i = 0 then 1 + Complex.I else -1 + Complex.I

/-- The matrix with the columns `1, -1` (of sum zero) and `i, i`. -/
noncomputable def sampleZeroSum : CxMat 2 2 :=
  fun i j => if j = 0 then (if i = 0 then 1 else -1) else Complex.I

/-- The two-column matrix whose first column is the column of `sampleColumn` and whose
second column is zero. -/
noncomputable def sampleColumnPadded : CxMat 2 2 :=
  fun i j => if j = 0 then sampleColumn i 0 else 0

/-! ## Lemmas on lists -/

theorem length_flatMap_const {α β : Type} (f : α → List β) (m : Nat)
    (hf : ∀ a, (f a).length = m) (l : List α) : (l.flatMap f).length = l.length * m := by
  induction l with
  | nil => simp
  | cons a l ih => simp [List.flatMap_cons, hf, ih, Nat.succ_mul, Nat.add_comm]

theorem getElem?_flatMap_const {α β : Type} (f : α → List β) (m : Nat)
    (hf : ∀ a, (f a).length = m) (l : List α) (i j : Nat) (hj : j < m) :
    (l.flatMap f)[i * m + j]? = (l[i]?).bind fun a => (f a)[j]? := by
  induction l generalizing i with
  | nil => simp
  | cons a l ih =>
    cases i with
    | zero =>
      have h : j < (f a).length := by rw [hf]; exact hj
      simp [List.flatMap_cons, List.getElem?_append_left h]
    | succ i =>
      have h : (f a).length ≤ (i + 1) * m + j := by
        rw [hf, Nat.succ_mul]; omega
      have h2 : (i + 1) * m + j - (f a).length = i * m + j := by
        rw [hf, Nat.succ_mul]; omega
      simp only [List.flatMap_cons, List.getElem?_append_right h, h2, ih,
        List.getElem?_cons_succ]

/-! ## Lemmas on `createBasis` -/

theorem writeRows_append (a b : List BasisState) (st : BasisLoop) :
    writeRows (a ++ b) st = (writeRows a st).bind (writeRows b) := by
  induction a generalizing st with
  | nil => simp [writeRows]
  | cons r a ih =>
    simp only [List.cons_append, writeRows]
    cases writeRow st r with
    | none => simp
    | some st1 => simp [ih]

theorem valenceLoop_eq_writeRows (i c : Int) (V : List Int) (st : BasisLoop) :
    valenceLoop i c V st = writeRows (V.map fun v => (v, c, i)) st := by
  induction V generalizing st with
  | nil => simp [valenceLoop, writeRows]
  | cons v V ih =>
    simp only [valenceLoop, List.map_cons, writeRows]
    cases writeRow st (v, c, i) with
    | none => simp
    | some st1 => simp [ih]

theorem conductionLoop_eq_writeRows (i : Int) (V C : List Int) (st : BasisLoop) :
    conductionLoop i V C st =
      writeRows (C.flatMap fun c => V.map fun v => (v, c, i)) st := by
  induction C generalizing st with
  | nil => simp [conductionLoop, writeRows]
  | cons c C ih =>
    simp only [conductionLoop, List.flatMap_cons, writeRows_append, valenceLoop_eq_writeRows]
    cases writeRows (V.map fun v => (v, c, i)) st with
    | none => simp
    | some st1 => simp [ih]

theorem kLoop_eq_writeRows (C V : List Int) (ks : List Nat) (st : BasisLoop) :
    kLoop C V ks st =
      writeRows (ks.flatMap fun i => C.flatMap fun c => V.map fun v => (v, c, (i : Int))) st := by
  induction ks generalizing st with
  | nil => simp [kLoop, writeRows]
  | cons i ks ih =>
    simp only [kLoop, List.flatMap_cons, writeRows_append, conductionLoop_eq_writeRows]
    cases writeRows (C.flatMap fun c => V.map fun v => (v, c, (i : Int))) st with
    | none => simp
    | some st1 => simp [ih]

theorem writeRows_some (rows : List BasisState) (states : List BasisState) (it : Nat)
    (h : it + rows.length ≤ states.length) :
    writeRows rows (states, it) =
      some (states.take it ++ rows ++ states.drop (it + rows.length), it + rows.length) := by
  induction rows generalizing states it with
  | nil => simp [writeRows]
  | cons r rows ih =>
    simp only [List.length_cons] at h
    have hlt : it < states.length := by omega
    have hlen : (states.set it r).length = states.length := List.length_set ..
    have h1 : it + 1 + rows.length ≤ (states.set it r).length := by rw [hlen]; omega
    simp only [writeRows, writeRow, hlt, if_true, Option.some_bind, ih _ _ h1]
    have e1 : (states.set it r).take (it + 1) = states.take it ++ [r] := by
      rw [List.set_eq_take_append_cons_drop, if_pos hlt]
      have : (List.take it states).length = it := by simp; omega
      rw [List.take_append_eq_append_take, this]
      simp
    have e2 : (states.set it r).drop (it + 1 + rows.length) =
        states.drop (it + 1 + rows.length) := by
      rw [List.set_eq_take_append_cons_drop, if_pos hlt]
      have : (List.take it states).length = it := by simp; omega
      rw [List.drop_append_eq_append_drop, this]
      have : List.drop (it + 1 + rows.length) (List.take it states) = [] := by
        apply List.drop_eq_nil_of_le; simp; omega
      rw [this]
      have e3 : it + 1 + rows.length - it = (rows.length + 1) := by omega
      simp [e3]
    rw [e1, e2]
    simp [List.length_cons, Nat.add_assoc, Nat.add_comm 1]

theorem writeRows_none (rows : List BasisState) (states : List BasisState) (it : Nat)
    (h1 : it ≤ states.length) (h2 : states.length < it + rows.length) :
    writeRows rows (states, it) = none := by
  induction rows generalizing states it with
  | nil => simp at h2; omega
  | cons r rows ih =>
    simp only [List.length_cons] at h2
    by_cases hlt : it < states.length
    · have hlen : (states.set it r).length = states.length := List.length_set ..
      simp only [writeRows, writeRow, hlt, if_true, Option.some_bind]
      apply ih
      · rw [hlen]; omega
      · rw [hlen]; omega
    · simp [writeRows, writeRow, hlt]

theorem length_basisRows (nk : Nat) (C V : List Int) :
    (basisRows nk C V).length = nk * C.length * V.length := by
  unfold basisRows
  rw [length_flatMap_const _ (C.length * V.length), List.length_range, Nat.mul_assoc]
  intro i
  rw [length_flatMap_const _ V.length]
  intro c
  simp

theorem createBasis_eq (e : Exciton) (C V : List Int) :
    createBasis e C V =
      if e.system.nk.toNat * C.length * V.length ≤ e.excitonbasisdim then
        some (paddedRows e.excitonbasisdim e.system.nk.toNat C V,
          { e with basisStates_ := paddedRows e.excitonbasisdim e.system.nk.toNat C V })
      else none := by
  unfold createBasis paddedRows
  simp only [kLoop_eq_writeRows]
  change (match writeRows (basisRows e.system.nk.toNat C V)
      (List.replicate e.excitonbasisdim (0, 0, 0), 0) with
    | none => none
    | some (states, _) => some (states, { e with basisStates_ := states })) = _
  by_cases h : e.system.nk.toNat * C.length * V.length ≤ e.excitonbasisdim
  · rw [if_pos h, writeRows_some]
    · simp [length_basisRows]
    · simp [length_basisRows, h]
  · rw [if_neg h, writeRows_none]
    · simp
    · simp [length_basisRows]; omega

theorem getElem?_basisRows (nk : Nat) (C V : List Int) (k c v : Nat)
    (hk : k < nk) (hc : c < C.length) (hv : v < V.length) :
    (basisRows nk C V)[k * C.length * V.length + c * V.length + v]? =
      some (V[v], C[c], (k : Int)) := by
  have hin : c * V.length + v < C.length * V.length := by
    calc c * V.length + v < c * V.length + V.length := by omega
      _ = (c + 1) * V.length := by rw [Nat.succ_mul]
      _ ≤ C.length * V.length := Nat.mul_le_mul_right _ hc
  have hlenV : ∀ (i : Nat) (c : Int),
      ((fun c => V.map fun v => ((v, c, (i : Int)) : BasisState)) c).length = V.length := by
    intro i c; simp
  have hlenC : ∀ i : Nat, ((fun i : Nat => C.flatMap fun c =>
      V.map fun v => ((v, c, (i : Int)) : BasisState)) i).length = C.length * V.length := by
    intro i
    exact length_flatMap_const _ V.length (hlenV i) C
  unfold basisRows
  rw [Nat.mul_assoc, Nat.add_assoc,
    getElem?_flatMap_const _ (C.length * V.length) hlenC _ k _ hin,
    List.getElem?_range hk]
  simp only [Option.some_bind]
  rw [getElem?_flatMap_const _ V.length (hlenV k) _ c _ hv, List.getElem?_eq_getElem hc]
  simp only [Option.some_bind]
  rw [List.getElem?_map, List.getElem?_eq_getElem hv]
  rfl

theorem mem_basisRows (nk : Nat) (C V : List Int) (r : BasisState) :
    r ∈ basisRows nk C V ↔ r.1 ∈ V ∧ r.2.1 ∈ C ∧ 0 ≤ r.2.2 ∧ r.2.2 < (nk : Int) := by
  obtain ⟨v, c, k⟩ := r
  unfold basisRows
  simp only [List.mem_flatMap, List.mem_range, List.mem_map, Prod.mk.injEq]
  constructor
  · rintro ⟨i, hi, c', hc', v', hv', rfl, rfl, rfl⟩
    exact ⟨hv', hc', by omega, by omega⟩
  · rintro ⟨hv, hc, h0, hk⟩
    refine ⟨k.toNat, by omega, c, hc, v, hv, rfl, rfl, by omega⟩

theorem nodup_basisRows (nk : Nat) (C V : List Int) (hC : C.Nodup) (hV : V.Nodup) :
    (basisRows nk C V).Nodup := by
  unfold basisRows
  rw [List.nodup_flatMap]
  constructor
  · intro i _
    rw [List.nodup_flatMap]
    constructor
    · intro c _
      refine hV.map ?_
      intro a b hab
      simpa using hab
    · refine hC.imp ?_
      intro a b hab
      simp only [Function.onFun]
      intro x hx hx2
      simp only [List.mem_map] at hx hx2
      obtain ⟨_, _, rfl⟩ := hx
      obtain ⟨_, _, h⟩ := hx2
      simp only [Prod.mk.injEq] at h
      exact hab h.2.1.symm
  · refine (List.nodup_range nk).imp ?_
    intro a b hab
    simp only [Function.onFun]
    intro x hx hx2
    simp only [List.mem_flatMap, List.mem_map] at hx hx2
    obtain ⟨_, _, _, _, rfl⟩ := hx
    obtain ⟨_, _, _, _, h⟩ := hx2
    simp only [Prod.mk.injEq] at h
    exact hab (by omega)

theorem createBasis_of_dim (e : Exciton) (C V : List Int)
    (hdim : e.excitonbasisdim = e.system.nk.toNat * C.length * V.length) :
    createBasis e C V = some (basisRows e.system.nk.toNat C V,
      { e with basisStates_ := basisRows e.system.nk.toNat C V }) := by
  rw [createBasis_eq, if_pos (by rw [hdim])]
  unfold paddedRows
  rw [hdim, Nat.sub_self, List.replicate_zero, List.append_nil]

/-! ## Claims on `createBasis` -/

/-- C1: when the stored dimension is `nk * |C| * |V|`, `createBasis C V` returns a table, and
for every `k < nk`, `c < |C|`, `v < |V|` its row at flat index `k*|C|*|V| + c*|V| + v` is
`(V[v], C[c], k)`: k outermost, conduction in the middle, valence innermost.  (`nk > 0`
follows from `k < nk`.) -/
theorem createBasis_row_at_flat_index (e : Exciton) (C V : List Int) (k c v : Nat)
    (hdim : e.excitonbasisdim = e.system.nk.toNat * C.length * V.length)
    (hk : (k : Int) < e.system.nk) (hc : c < C.length) (hv : v < V.length) :
    ∃ states e', createBasis e C V = some (states, e') ∧
      states[k * C.length * V.length + c * V.length + v]? = some (V[v], C[c], (k : Int)) := by
  have hk2 : k < e.system.nk.toNat := by omega
  exact ⟨_, _, createBasis_of_dim e C V hdim, getElem?_basisRows _ C V k c v hk2 hc hv⟩

/-- C1, at `V = [4]`, `C = [6, 7]`, `nk = 2`: the table is `(4,6,0),(4,7,0),(4,6,1),(4,7,1)`
and the row at `k = 1`, `c = 1`, `v = 0` is `(4, 7, 1)`. -/
theorem createBasis_row_at_flat_index_witness :
    (createBasis sample [6, 7] [4]).map Prod.fst
        = some [(4, 6, 0), (4, 7, 0), (4, 6, 1), (4, 7, 1)] ∧
      ∃ states e', createBasis sample [6, 7] [4] = some (states, e') ∧
        states[1 * [6, 7].length * [4].length + 1 * [4].length + 0]?
          = some (([4] : List Int)[0], ([6, 7] : List Int)[1], ((1 : Nat) : Int)) :=
  ⟨by decide,
    createBasis_row_at_flat_index sample [6, 7] [4] 1 1 0 (by decide) (by decide) (by decide)
      (by decide)⟩

/-- C2, counterexample: with the stored dimension `6` and `nk = 2`, `C = [6, 7]`, `V = [4]`
the returned table has `6` rows, not `2 * 2 * 1 = 4`. -/
theorem createBasis_row_count_counterexample :
    (createBasis sampleWide [6, 7] [4]).map (fun r => r.1.length) = some 6 ∧
      sampleWide.system.nk.toNat * [6, 7].length * [4].length = 4 := by
  decide

/-- C2, amended: `createBasis C V` returns a table exactly when `nk * |C| * |V|` does not
exceed the stored dimension `excitonbasisdim`, and the returned table has exactly
`excitonbasisdim` rows. -/
theorem createBasis_row_count (e : Exciton) (C V : List Int) :
    (createBasis e C V).map (fun r => r.1.length) =
      if e.system.nk.toNat * C.length * V.length ≤ e.excitonbasisdim then
        some e.excitonbasisdim
      else none := by
  rw [createBasis_eq]
  by_cases h : e.system.nk.toNat * C.length * V.length ≤ e.excitonbasisdim
  · simp only [if_pos h, Option.map_some', paddedRows, List.length_append, length_basisRows,
      List.length_replicate]
    congr 1
    omega
  · simp [if_neg h]

/-- C3, counterexample: `setBands` on the labels `0, 1, 1` (Fermi level `5`) gives
`V = [5]`, `C = [6, 6]`, and with `nk = 2` and the table sized `4` the basis has the row
`(5, 6, 0)` twice. -/
theorem createBasis_distinct_counterexample :
    sampleRepeated.valenceBands_ = [5] ∧ sampleRepeated.conductionBands_ = [6, 6] ∧
      (createBasis sampleRepeated sampleRepeated.conductionBands_
          sampleRepeated.valenceBands_).map Prod.fst
        = some [(5, 6, 0), (5, 6, 0), (5, 6, 1), (5, 6, 1)] ∧
      ¬ ([(5, 6, 0), (5, 6, 0), (5, 6, 1), (5, 6, 1)] : List BasisState).Nodup := by
  decide

/-- C3, amended: when neither the conduction list nor the valence list repeats a label and
the stored dimension is `nk * |C| * |V|`, `createBasis` returns a table whose rows are
pairwise distinct, and a triple is a row exactly when it is `(v, c, k)` with `v` in `V`,
`c` in `C` and `0 ≤ k < nk`; so each such triple appears exactly once. -/
theorem createBasis_rows_distinct (e : Exciton) (C V : List Int)
    (hC : C.Nodup) (hV : V.Nodup)
    (hdim : e.excitonbasisdim = e.system.nk.toNat * C.length * V.length) :
    ∃ states e', createBasis e C V = some (states, e') ∧ states.Nodup ∧
      ∀ r : BasisState, r ∈ states ↔ r.1 ∈ V ∧ r.2.1 ∈ C ∧ 0 ≤ r.2.2 ∧ r.2.2 < e.system.nk := by
  refine ⟨_, _, createBasis_of_dim e C V hdim, nodup_basisRows _ C V hC hV, ?_⟩
  · intro r
    rw [mem_basisRows]
    constructor
    · rintro ⟨h1, h2, h3, h4⟩
      exact ⟨h1, h2, h3, by omega⟩
    · rintro ⟨h1, h2, h3, h4⟩
      exact ⟨h1, h2, h3, by omega⟩

/-- C3, amended, at `V = [4]`, `C = [6, 7]`, `nk = 2` with the table sized `4`. -/
theorem createBasis_rows_distinct_witness :
    ([6, 7] : List Int).Nodup ∧ ([4] : List Int).Nodup ∧
      ∃ states e', createBasis sample [6, 7] [4] = some (states, e') ∧ states.Nodup ∧
        ∀ r : BasisState, r ∈ states ↔
          r.1 ∈ ([4] : List Int) ∧ r.2.1 ∈ ([6, 7] : List Int) ∧ 0 ≤ r.2.2 ∧
            r.2.2 < sample.system.nk :=
  ⟨by decide, by decide,
    createBasis_rows_distinct sample [6, 7] [4] (by decide) (by decide) (by decide)⟩

/-! ## Lemmas on the band setters -/

theorem mem_regspace (start stop x : Int) :
    x ∈ regspace start stop ↔ (start ≤ x ∧ x ≤ stop) ∨ (stop ≤ x ∧ x ≤ start ∧ stop < start) := by
  unfold regspace
  split
  · simp only [List.mem_map, List.mem_range]
    constructor
    · rintro ⟨i, hi, rfl⟩
      left; omega
    · rintro (⟨h1, h2⟩ | ⟨h1, h2, h3⟩)
      · exact ⟨(x - start).toNat, by omega, by omega⟩
      · omega
  · simp only [List.mem_map, List.mem_range]
    constructor
    · rintro ⟨i, hi, rfl⟩
      right; omega
    · rintro (⟨h1, h2⟩ | ⟨h1, h2, h3⟩)
      · omega
      · exact ⟨(start - x).toNat, by omega, by omega⟩

theorem regspace_ne_nil (start stop : Int) : regspace start stop ≠ [] := by
  intro h
  have h1 : start ∈ regspace start stop := by
    rw [mem_regspace]
    by_cases hs : start ≤ stop
    · left; omega
    · right; omega
  rw [h] at h1
  exact List.not_mem_nil _ h1

theorem regspace_ascending (start stop : Int) (h : start ≤ stop) :
    regspace start stop =
      (List.range (stop - start + 1).toNat).map (fun (i : Nat) => start + (i : Int)) := by
  unfold regspace
  rw [if_pos h]

theorem setBandsLoop_eq (F : Int) (L : List Int) (acc : List Int × List Int) :
    setBandsLoop F L acc =
      (acc.1 ++ (L.filter (fun b => decide (b ≤ 0))).map (fun b => b + F),
        acc.2 ++ (L.filter (fun b => decide (0 < b))).map (fun b => b + F)) := by
  induction L generalizing acc with
  | nil => simp [setBandsLoop]
  | cons b L ih =>
    obtain ⟨va, co⟩ := acc
    by_cases hb : b ≤ 0
    · have hb2 : ¬ 0 < b := by omega
      simp [setBandsLoop, hb, hb2, ih]
    · have hb2 : 0 < b := by omega
      simp [setBandsLoop, hb, hb2, ih]

theorem setBands_valenceBands (e : Exciton) (L : List Int) :
    (setBands e L).valenceBands_ =
      (L.filter (fun b => decide (b ≤ 0))).map (fun b => b + e.system.fermiLevel) := by
  simp [setBands, setBandsLoop_eq]

theorem setBands_conductionBands (e : Exciton) (L : List Int) :
    (setBands e L).conductionBands_ =
      (L.filter (fun b => decide (0 < b))).map (fun b => b + e.system.fermiLevel) := by
  simp [setBands, setBandsLoop_eq]

theorem setBands2_accepted (joinRows : List Int → List Int → List Int) (e : Exciton)
    (nb nr : Int) (hb : 0 < nb) (hr : 0 < nr) :
    (setBands2 joinRows e nb nr).1.valenceBands_ =
        regspace (e.system.fermiLevel - nb + 1) (e.system.fermiLevel - nr) ∧
      (setBands2 joinRows e nb nr).1.conductionBands_ =
        regspace (e.system.fermiLevel + 1 + nr) (e.system.fermiLevel + nb) ∧
      (setBands2 joinRows e nb nr).1.system = e.system := by
  have h : nb > 0 ∧ nr > 0 := ⟨hb, hr⟩
  simp [setBands2, h]

theorem setBands2_rejected (joinRows : List Int → List Int → List Int) (e : Exciton)
    (nb nr : Int) (h : ¬ (0 < nb ∧ 0 < nr)) :
    (setBands2 joinRows e nb nr).1 = e := by
  have h2 : ¬ (nb > 0 ∧ nr > 0) := h
  simp [setBands2, h2]

/-! ## Claims on `setBands` -/

/-- C4: `setBands(L)` sets `valenceBands` to the labels of `L` that are `≤ 0` and
`conductionBands` to those that are `> 0`, each shifted by the Fermi level and in the order
of `L`; together they are a rearrangement of all shifted labels (nothing dropped or
duplicated).  With `L = [-1, 1, 2]` and Fermi level `5`: `[4]` and `[6, 7]`. -/
theorem setBands_stable_partition (e : Exciton) (L : List Int) :
    (setBands e L).valenceBands_ =
        (L.filter (fun b => decide (b ≤ 0))).map (fun b => b + e.system.fermiLevel) ∧
      (setBands e L).conductionBands_ =
        (L.filter (fun b => decide (0 < b))).map (fun b => b + e.system.fermiLevel) ∧
      ((setBands e L).valenceBands_ ++ (setBands e L).conductionBands_).Perm
        (L.map (fun b => b + e.system.fermiLevel)) ∧
      (setBands sample [-1, 1, 2]).valenceBands_ = [4] ∧
      (setBands sample [-1, 1, 2]).conductionBands_ = [6, 7] := by
  refine ⟨setBands_valenceBands e L, setBands_conductionBands e L, ?_, by decide, by decide⟩
  rw [setBands_valenceBands, setBands_conductionBands, ← List.map_append]
  refine List.Perm.map _ ?_
  have h : (fun b : Int => decide (0 < b)) = fun b => !(decide (b ≤ 0)) := by
    funext b
    by_cases hb : b ≤ 0
    · have : ¬ 0 < b := by omega
      simp [hb, this]
    · have : 0 < b := by omega
      simp [hb, this]
  rw [h]
  exact List.filter_append_perm _ L

/-- C5: for `nBands > nRemoved > 0`, `setBands(nBands, nRemoved)` sets `valenceBands` to the
ascending run `F-nBands+1 .. F-nRemoved` and `conductionBands` to the ascending run
`F+1+nRemoved .. F+nBands`; each has `nBands - nRemoved` elements, they share no element, and
`F - j` is a valence band iff `F + 1 + j` is a conduction band. -/
theorem setBands2_symmetric_window (joinRows : List Int → List Int → List Int) (e : Exciton)
    (nBands nRemoved : Int) (hr : 0 < nRemoved) (hb : nRemoved < nBands) :
    (setBands2 joinRows e nBands nRemoved).1.valenceBands_ =
        (List.range (nBands - nRemoved).toNat).map
          (fun (i : Nat) => e.system.fermiLevel - nBands + 1 + (i : Int)) ∧
      (setBands2 joinRows e nBands nRemoved).1.conductionBands_ =
        (List.range (nBands - nRemoved).toNat).map
          (fun (i : Nat) => e.system.fermiLevel + 1 + nRemoved + (i : Int)) ∧
      (setBands2 joinRows e nBands nRemoved).1.valenceBands_.length = (nBands - nRemoved).toNat ∧
      (setBands2 joinRows e nBands nRemoved).1.conductionBands_.length
        = (nBands - nRemoved).toNat ∧
      (∀ x, x ∈ (setBands2 joinRows e nBands nRemoved).1.valenceBands_ →
        x ∉ (setBands2 joinRows e nBands nRemoved).1.conductionBands_) ∧
      ∀ j : Int, e.system.fermiLevel - j ∈ (setBands2 joinRows e nBands nRemoved).1.valenceBands_ ↔
        e.system.fermiLevel + 1 + j ∈ (setBands2 joinRows e nBands nRemoved).1.conductionBands_ := by
  obtain ⟨hV, hC, _⟩ := setBands2_accepted joinRows e nBands nRemoved (by omega) hr
  have hV2 := regspace_ascending (e.system.fermiLevel - nBands + 1)
    (e.system.fermiLevel - nRemoved) (by omega)
  have hC2 := regspace_ascending (e.system.fermiLevel + 1 + nRemoved)
    (e.system.fermiLevel + nBands) (by omega)
  have n1 : (e.system.fermiLevel - nRemoved - (e.system.fermiLevel - nBands + 1) + 1).toNat
      = (nBands - nRemoved).toNat := by congr 1; omega
  have n2 : (e.system.fermiLevel + nBands - (e.system.fermiLevel + 1 + nRemoved) + 1).toNat
      = (nBands - nRemoved).toNat := by congr 1; omega
  rw [n1] at hV2
  rw [n2] at hC2
  refine ⟨by rw [hV, hV2], by rw [hC, hC2], by rw [hV, hV2]; simp, by rw [hC, hC2]; simp, ?_, ?_⟩
  · intro x hx hx2
    rw [hV, mem_regspace] at hx
    rw [hC, mem_regspace] at hx2
    omega
  · intro j
    rw [hV, hC, mem_regspace, mem_regspace]
    omega

/-- C5, at Fermi level `5`, `nBands = 3`, `nRemoved = 1`: valence `[3, 4]`, conduction
`[7, 8]`. -/
theorem setBands2_symmetric_window_witness :
    (setBands2 (fun a b => a ++ b) sample 3 1).1.valenceBands_ = [3, 4] ∧
      (setBands2 (fun a b => a ++ b) sample 3 1).1.conductionBands_ = [7, 8] ∧
      (∀ j : Int, sample.system.fermiLevel - j
          ∈ (setBands2 (fun a b => a ++ b) sample 3 1).1.valenceBands_ ↔
        sample.system.fermiLevel + 1 + j
          ∈ (setBands2 (fun a b => a ++ b) sample 3 1).1.conductionBands_) :=
  ⟨by decide, by decide,
    (setBands2_symmetric_window (fun a b => a ++ b) sample 3 1 (by decide) (by decide)).2.2.2.2.2⟩

/-- C6, counterexample: `setBands` on the labels `1, 2` is accepted and leaves
`valenceBands` empty. -/
theorem setBands_nonempty_counterexample :
    (setBands sample [1, 2]).valenceBands_ = [] ∧
      (setBands sample [1, 2]).conductionBands_ = [6, 7] := by
  decide

/-- C6, amended: after `setBands(nBands, nRemoved)` with an accepted pair (`nBands > 0` and
`nRemoved > 0`) `valenceBands` and `conductionBands` are both non-empty; after
`setBands(labels)` `valenceBands` is non-empty exactly when some label is `≤ 0` and
`conductionBands` exactly when some label is `> 0`. -/
theorem setBands_nonempty (joinRows : List Int → List Int → List Int) (e : Exciton)
    (nBands nRemoved : Int) (L : List Int) (hb : 0 < nBands) (hr : 0 < nRemoved) :
    ((setBands2 joinRows e nBands nRemoved).1.valenceBands_ ≠ [] ∧
      (setBands2 joinRows e nBands nRemoved).1.conductionBands_ ≠ []) ∧
    (((setBands e L).valenceBands_ ≠ [] ↔ ∃ b ∈ L, b ≤ 0) ∧
      ((setBands e L).conductionBands_ ≠ [] ↔ ∃ b ∈ L, 0 < b)) := by
  obtain ⟨hV, hC, _⟩ := setBands2_accepted joinRows e nBands nRemoved hb hr
  refine ⟨⟨by rw [hV]; exact regspace_ne_nil _ _, by rw [hC]; exact regspace_ne_nil _ _⟩, ?_, ?_⟩
  · rw [setBands_valenceBands]
    simp [List.filter_eq_nil_iff]
  · rw [setBands_conductionBands]
    simp [List.filter_eq_nil_iff]

/-- C6, amended, at `nBands = 3`, `nRemoved = 1` and the labels `-1, 1, 2`. -/
theorem setBands_nonempty_witness :
    (0 : Int) < 3 ∧ (0 : Int) < 1 ∧
    ((setBands2 (fun a b => a ++ b) sample 3 1).1.valenceBands_ ≠ [] ∧
      (setBands2 (fun a b => a ++ b) sample 3 1).1.conductionBands_ ≠ []) ∧
    (((setBands sample [-1, 1, 2]).valenceBands_ ≠ [] ↔ ∃ b ∈ ([-1, 1, 2] : List Int), b ≤ 0) ∧
      ((setBands sample [-1, 1, 2]).conductionBands_ ≠ [] ↔
        ∃ b ∈ ([-1, 1, 2] : List Int), 0 < b)) :=
  ⟨by decide, by decide,
    setBands_nonempty (fun a b => a ++ b) sample 3 1 [-1, 1, 2] (by decide) (by decide)⟩

/-- C7: if every element of `valenceBands` is `≤` the Fermi level and every element of
`conductionBands` is `>` it, the same holds after `setBands(labels)` for any labels and
after `setBands(nBands, nRemoved)` for any integers, accepted (also with
`nRemoved ≥ nBands`) or rejected. -/
theorem setBands_keeps_fermi_split (joinRows : List Int → List Int → List Int) (e : Exciton)
    (L : List Int) (nBands nRemoved : Int)
    (hV : ∀ x ∈ e.valenceBands_, x ≤ e.system.fermiLevel)
    (hC : ∀ x ∈ e.conductionBands_, e.system.fermiLevel < x) :
    ((∀ x ∈ (setBands e L).valenceBands_, x ≤ (setBands e L).system.fermiLevel) ∧
      (∀ x ∈ (setBands e L).conductionBands_, (setBands e L).system.fermiLevel < x)) ∧
    ((∀ x ∈ (setBands2 joinRows e nBands nRemoved).1.valenceBands_,
        x ≤ (setBands2 joinRows e nBands nRemoved).1.system.fermiLevel) ∧
      (∀ x ∈ (setBands2 joinRows e nBands nRemoved).1.conductionBands_,
        (setBands2 joinRows e nBands nRemoved).1.system.fermiLevel < x)) := by
  refine ⟨⟨?_, ?_⟩, ?_⟩
  · intro x hx
    rw [setBands_valenceBands] at hx
    simp only [List.mem_map, List.mem_filter, decide_eq_true_eq] at hx
    obtain ⟨b, ⟨_, hb⟩, rfl⟩ := hx
    show b + e.system.fermiLevel ≤ e.system.fermiLevel
    omega
  · intro x hx
    rw [setBands_conductionBands] at hx
    simp only [List.mem_map, List.mem_filter, decide_eq_true_eq] at hx
    obtain ⟨b, ⟨_, hb⟩, rfl⟩ := hx
    show e.system.fermiLevel < b + e.system.fermiLevel
    omega
  · by_cases h : 0 < nBands ∧ 0 < nRemoved
    · obtain ⟨hV2, hC2, hS⟩ := setBands2_accepted joinRows e nBands nRemoved h.1 h.2
      rw [hV2, hC2, hS]
      constructor
      · intro x hx
        rw [mem_regspace] at hx
        omega
      · intro x hx
        rw [mem_regspace] at hx
        omega
    · rw [setBands2_rejected joinRows e nBands nRemoved h]
      exact ⟨hV, hC⟩

/-- C7, from the object with `valenceBands = [4]`, `conductionBands = [6, 7]` (Fermi level
`5`), for the labels `0, 3` and for `nBands = 2`, `nRemoved = 3` (a descending
`regspace`). -/
theorem setBands_keeps_fermi_split_witness :
    (setBands2 (fun a b => a ++ b) sampleBands 2 3).1.valenceBands_ = [4, 3, 2] ∧
    (setBands2 (fun a b => a ++ b) sampleBands 2 3).1.conductionBands_ = [9, 8, 7] ∧
    ((∀ x ∈ (setBands sampleBands [0, 3]).valenceBands_,
        x ≤ (setBands sampleBands [0, 3]).system.fermiLevel) ∧
      (∀ x ∈ (setBands sampleBands [0, 3]).conductionBands_,
        (setBands sampleBands [0, 3]).system.fermiLevel < x)) ∧
    ((∀ x ∈ (setBands2 (fun a b => a ++ b) sampleBands 2 3).1.valenceBands_,
        x ≤ (setBands2 (fun a b => a ++ b) sampleBands 2 3).1.system.fermiLevel) ∧
      (∀ x ∈ (setBands2 (fun a b => a ++ b) sampleBands 2 3).1.conductionBands_,
        (setBands2 (fun a b => a ++ b) sampleBands 2 3).1.system.fermiLevel < x)) :=
  ⟨by decide, by decide,
    setBands_keeps_fermi_split (fun a b => a ++ b) sampleBands [0, 3] 2 3 (by decide)
      (by decide)⟩

/-! ## Lemmas on the band dictionary -/

theorem BandMap.find_assign (m : BandMap) (k v x : Int) :
    BandMap.find (BandMap.assign m k v) x = if x = k then some v else BandMap.find m x := by
  induction m with
  | nil => simp [BandMap.assign, BandMap.find]
  | cons kv rest ih =>
    obtain ⟨k1, v1⟩ := kv
    simp only [BandMap.assign]
    split
    · simp [BandMap.find]
    · split
      · rename_i h1 h2
        subst h2
        by_cases hx : x = k
        · simp [BandMap.find, hx]
        · simp [BandMap.find, hx]
      · rename_i h1 h2
        simp only [BandMap.find, ih]
        by_cases hx : x = k
        · subst hx
          simp [h2]
        · simp [hx]

theorem BandMap.mem_keys_assign (m : BandMap) (k v x : Int) :
    x ∈ BandMap.keys (BandMap.assign m k v) ↔ x = k ∨ x ∈ BandMap.keys m := by
  induction m with
  | nil => simp [BandMap.assign, BandMap.keys]
  | cons kv rest ih =>
    obtain ⟨k1, v1⟩ := kv
    simp only [BandMap.assign]
    split
    · simp [BandMap.keys]
    · split
      · rename_i h1 h2
        subst h2
        simp [BandMap.keys]
      · simp only [BandMap.keys, List.map_cons, List.mem_cons] at ih ⊢
        rw [ih]
        tauto

theorem BandMap.keys_sorted_assign (m : BandMap) (k v : Int)
    (h : (BandMap.keys m).Pairwise (fun a b => a < b)) :
    (BandMap.keys (BandMap.assign m k v)).Pairwise (fun a b => a < b) := by
  induction m with
  | nil => simp [BandMap.assign, BandMap.keys]
  | cons kv rest ih =>
    obtain ⟨k1, v1⟩ := kv
    have h0 : (k1 :: BandMap.keys rest).Pairwise (fun a b => a < b) := h
    rw [List.pairwise_cons] at h0
    simp only [BandMap.assign]
    split
    · rename_i h1
      show (k :: k1 :: BandMap.keys rest).Pairwise (fun a b => a < b)
      rw [List.pairwise_cons, List.pairwise_cons]
      refine ⟨?_, h0⟩
      intro a ha
      rcases List.mem_cons.1 ha with rfl | ha
      · exact h1
      · exact lt_trans h1 (h0.1 a ha)
    · split
      · rename_i h1 h2
        subst h2
        exact h
      · rename_i h1 h2
        show (k1 :: BandMap.keys (BandMap.assign rest k v)).Pairwise (fun a b => a < b)
        rw [List.pairwise_cons]
        refine ⟨?_, ih h0.2⟩
        intro a ha
        rw [BandMap.mem_keys_assign] at ha
        rcases ha with rfl | ha
        · omega
        · exact h0.1 a ha

theorem BandMap.find_isSome (m : BandMap) (x : Int) :
    (BandMap.find m x).isSome ↔ x ∈ BandMap.keys m := by
  induction m with
  | nil => simp [BandMap.find, BandMap.keys]
  | cons kv rest ih =>
    obtain ⟨k1, v1⟩ := kv
    simp only [BandMap.keys, List.map_cons, List.mem_cons] at ih ⊢
    by_cases hx : x = k1
    · simp [BandMap.find, hx]
    · simp [BandMap.find, hx, ih]

theorem BandMap.mem_of_find (m : BandMap) (x j : Int) (h : BandMap.find m x = some j) :
    (x, j) ∈ m := by
  induction m with
  | nil => simp [BandMap.find] at h
  | cons kv rest ih =>
    obtain ⟨k1, v1⟩ := kv
    by_cases hx : x = k1
    · simp only [BandMap.find, hx, if_true, Option.some.injEq] at h
      simp [hx, h]
    · simp only [BandMap.find, hx, if_false] at h
      exact List.mem_cons_of_mem _ (ih h)

theorem BandMap.find_of_mem (m : BandMap) (x j : Int) (hm : (BandMap.keys m).Nodup)
    (h : (x, j) ∈ m) : BandMap.find m x = some j := by
  induction m with
  | nil => simp at h
  | cons kv rest ih =>
    obtain ⟨k1, v1⟩ := kv
    have hm0 : (k1 :: BandMap.keys rest).Nodup := hm
    rw [List.nodup_cons] at hm0
    rcases List.mem_cons.1 h with h1 | h1
    · simp only [Prod.mk.injEq] at h1
      simp [BandMap.find, h1.1, h1.2]
    · have hx : x ≠ k1 := by
        rintro rfl
        apply hm0.1
        exact List.mem_map.2 ⟨(x, j), h1, rfl⟩
      simp only [BandMap.find, hx, if_false]
      exact ih hm0.2 h1

theorem bandDictionaryLoop_mem_keys (L : List Int) (s : Nat) (m : BandMap) (x : Int) :
    x ∈ BandMap.keys (bandDictionaryLoop L s m) ↔ x ∈ L ∨ x ∈ BandMap.keys m := by
  induction L generalizing s m with
  | nil => simp [bandDictionaryLoop]
  | cons b L ih =>
    simp only [bandDictionaryLoop, ih, BandMap.mem_keys_assign, List.mem_cons]
    tauto

theorem bandDictionaryLoop_sorted (L : List Int) (s : Nat) (m : BandMap)
    (h : (BandMap.keys m).Pairwise (fun a b => a < b)) :
    (BandMap.keys (bandDictionaryLoop L s m)).Pairwise (fun a b => a < b) := by
  induction L generalizing s m with
  | nil => simpa [bandDictionaryLoop] using h
  | cons b L ih =>
    simp only [bandDictionaryLoop]
    exact ih _ _ (BandMap.keys_sorted_assign m b _ h)

theorem bandDictionaryLoop_find (L : List Int) (s : Nat) (m : BandMap) (x j : Int) :
    BandMap.find (bandDictionaryLoop L s m) x = some j ↔
      (∃ i : Nat, j = ((s + i : Nat) : Int) ∧ L[i]? = some x ∧ ∀ i2, i < i2 → L[i2]? ≠ some x) ∨
        (x ∉ L ∧ BandMap.find m x = some j) := by
  induction L generalizing s m with
  | nil => simp [bandDictionaryLoop]
  | cons b L ih =>
    simp only [bandDictionaryLoop, ih, BandMap.find_assign]
    constructor
    · rintro (⟨i, hj, hi, hlast⟩ | ⟨hx, hf⟩)
      · left
        refine ⟨i + 1, by omega, by simpa using hi, ?_⟩
        intro i2 hi2
        obtain ⟨i3, rfl⟩ : ∃ i3, i2 = i3 + 1 := ⟨i2 - 1, by omega⟩
        simpa using hlast i3 (by omega)
      · by_cases hxb : x = b
        · left
          rw [if_pos hxb] at hf
          refine ⟨0, ?_, by simp [hxb], ?_⟩
          · simp only [Option.some.injEq] at hf
            omega
          · intro i2 hi2 hc
            obtain ⟨i3, rfl⟩ : ∃ i3, i2 = i3 + 1 := ⟨i2 - 1, by omega⟩
            rw [List.getElem?_cons_succ] at hc
            exact hx (List.mem_iff_getElem?.2 ⟨i3, hc⟩)
        · right
          rw [if_neg hxb] at hf
          exact ⟨by simp [hxb, hx], hf⟩
    · rintro (⟨i, hj, hi, hlast⟩ | ⟨hx, hf⟩)
      · cases i with
        | zero =>
          right
          simp only [List.getElem?_cons_zero, Option.some.injEq] at hi
          refine ⟨?_, ?_⟩
          · intro hmem
            obtain ⟨i3, h3⟩ := List.mem_iff_getElem?.1 hmem
            exact hlast (i3 + 1) (by omega) (by simpa using h3)
          · rw [if_pos hi.symm, hj]
            simp
        | succ i =>
          left
          refine ⟨i, by omega, by simpa using hi, ?_⟩
          intro i2 hi2 hc
          exact hlast (i2 + 1) (by omega) (by simpa using hc)
      · right
        simp only [List.mem_cons, not_or] at hx
        exact ⟨hx.2, by rw [if_neg hx.1]; exact hf⟩

theorem generateBandDictionary_find (e : Exciton) (x j : Int) :
    BandMap.find (generateBandDictionary e).bandToIndex x = some j ↔
      ∃ i : Nat, j = (i : Int) ∧ e.bandList[i]? = some x ∧
        ∀ i2, i < i2 → e.bandList[i2]? ≠ some x := by
  show BandMap.find (bandDictionaryLoop e.bandList 0 []) x = some j ↔ _
  rw [bandDictionaryLoop_find]
  simp [BandMap.find]

theorem generateBandDictionary_mem_keys (e : Exciton) (x : Int) :
    x ∈ BandMap.keys (generateBandDictionary e).bandToIndex ↔ x ∈ e.bandList := by
  show x ∈ BandMap.keys (bandDictionaryLoop e.bandList 0 []) ↔ _
  rw [bandDictionaryLoop_mem_keys]
  simp [BandMap.keys]

theorem generateBandDictionary_keys_nodup (e : Exciton) :
    (BandMap.keys (generateBandDictionary e).bandToIndex).Nodup := by
  have h : (BandMap.keys (bandDictionaryLoop e.bandList 0 [])).Pairwise (fun a b => a < b) :=
    bandDictionaryLoop_sorted _ _ _ (by simp [BandMap.keys])
  exact h.imp (fun hab => ne_of_lt hab)

theorem generateBandDictionary_length (e : Exciton) :
    (generateBandDictionary e).bandToIndex.length = e.bandList.dedup.length := by
  have hp : (BandMap.keys (generateBandDictionary e).bandToIndex).Perm e.bandList.dedup := by
    rw [List.perm_ext_iff_of_nodup (generateBandDictionary_keys_nodup e) (List.nodup_dedup _)]
    intro x
    rw [generateBandDictionary_mem_keys, List.mem_dedup]
  have := hp.length_eq
  simpa [BandMap.keys] using this

theorem generateBandDictionary_find_of_mem (e : Exciton) (x : Int) (hx : x ∈ e.bandList) :
    ∃ i : Nat, i < e.bandList.length ∧
      BandMap.find (generateBandDictionary e).bandToIndex x = some (i : Int) := by
  have h1 := (BandMap.find_isSome (generateBandDictionary e).bandToIndex x).2
    ((generateBandDictionary_mem_keys e x).2 hx)
  obtain ⟨j, hj⟩ := Option.isSome_iff_exists.1 h1
  obtain ⟨i, rfl, hi, _⟩ := (generateBandDictionary_find e x j).1 hj
  obtain ⟨hlt, _⟩ := List.getElem?_eq_some.1 hi
  exact ⟨i, hlt, hj⟩

theorem generateBandDictionary_find_getElem (e : Exciton) (hN : e.bandList.Nodup)
    (i : Nat) (hi : i < e.bandList.length) :
    BandMap.find (generateBandDictionary e).bandToIndex (e.bandList[i]) = some (i : Int) := by
  rw [generateBandDictionary_find]
  refine ⟨i, rfl, List.getElem?_eq_getElem hi, ?_⟩
  intro i2 hlt hc
  obtain ⟨h2, heq⟩ := List.getElem?_eq_some.1 hc
  have := (List.Nodup.getElem_inj_iff hN).1 heq
  omega

theorem generateBandDictionary_find_inj (e : Exciton) (a b j : Int)
    (ha : BandMap.find (generateBandDictionary e).bandToIndex a = some j)
    (hb : BandMap.find (generateBandDictionary e).bandToIndex b = some j) : a = b := by
  obtain ⟨i, hj, hi, _⟩ := (generateBandDictionary_find e a j).1 ha
  obtain ⟨i2, hj2, hi2, _⟩ := (generateBandDictionary_find e b j).1 hb
  have : i = i2 := by omega
  subst this
  rw [hi] at hi2
  exact Option.some.inj hi2

/-! ## Claims on `generateBandDictionary` -/

/-- C8: for a band list of `n` pairwise distinct labels, the keys of the map built by
`generateBandDictionary` are exactly the labels of the list, the label at position `i` is
sent to `i` for every `i < n`, and the map is a bijection from the labels onto
`{0, .., n-1}`: it has `n` entries, every label gets a slot below `n`, different labels
get different slots, and every slot below `n` is taken. -/
theorem generateBandDictionary_bijection (e : Exciton) (hN : e.bandList.Nodup) :
    (∀ x, x ∈ BandMap.keys (generateBandDictionary e).bandToIndex ↔ x ∈ e.bandList) ∧
    (∀ (i : Nat) (hi : i < e.bandList.length),
      BandMap.find (generateBandDictionary e).bandToIndex (e.bandList[i]) = some (i : Int)) ∧
    (generateBandDictionary e).bandToIndex.length = e.bandList.length ∧
    (∀ x ∈ e.bandList, ∃ i : Nat, i < e.bandList.length ∧
      BandMap.find (generateBandDictionary e).bandToIndex x = some (i : Int)) ∧
    (∀ a ∈ e.bandList, ∀ b ∈ e.bandList,
      BandMap.find (generateBandDictionary e).bandToIndex a
        = BandMap.find (generateBandDictionary e).bandToIndex b → a = b) ∧
    (∀ i : Nat, i < e.bandList.length → ∃ x ∈ e.bandList,
      BandMap.find (generateBandDictionary e).bandToIndex x = some (i : Int)) := by
  refine ⟨generateBandDictionary_mem_keys e, generateBandDictionary_find_getElem e hN, ?_,
    generateBandDictionary_find_of_mem e, ?_, ?_⟩
  · rw [generateBandDictionary_length, List.Nodup.dedup hN]
  · intro a ha b _ hab
    obtain ⟨i, _, hi⟩ := generateBandDictionary_find_of_mem e a ha
    exact generateBandDictionary_find_inj e a b _ hi (hab ▸ hi)
  · intro i hi
    exact ⟨e.bandList[i], List.getElem_mem hi, generateBandDictionary_find_getElem e hN i hi⟩

/-- C8, at the band list `7, 3, 9`: the map is `3 ↦ 1, 7 ↦ 0, 9 ↦ 2`, and the label at
position `1` is sent to `1`. -/
theorem generateBandDictionary_bijection_witness :
    sampleList.bandList.Nodup ∧
    (generateBandDictionary sampleList).bandToIndex = [(3, 1), (7, 0), (9, 2)] ∧
    BandMap.find (generateBandDictionary sampleList).bandToIndex (sampleList.bandList[1])
      = some ((1 : Nat) : Int) :=
  ⟨by decide, by decide,
    (generateBandDictionary_bijection sampleList (by decide)).2.1 1 (by decide)⟩

/-- C9, counterexample: for the band list `7, 7` there is one distinct label, and the map
sends it to slot `1`, its last position, so slot `0` is not used. -/
theorem generateBandDictionary_slots_counterexample :
    sampleTwice.bandList.dedup.length = 1 ∧
    (generateBandDictionary sampleTwice).bandToIndex = [(7, 1)] ∧
    BandMap.find (generateBandDictionary sampleTwice).bandToIndex 7 = some 1 ∧
    (0 : Int) ∉ BandMap.values (generateBandDictionary sampleTwice).bandToIndex := by
  decide

/-- C9, amended: for every band list, `generateBandDictionary` sends a label to the 0-based
position of its last occurrence in the list; with `d` distinct labels the map has `d`
entries, and its slot values are pairwise different positions of the list. -/
theorem generateBandDictionary_last_position (e : Exciton) :
    (generateBandDictionary e).bandToIndex.length = e.bandList.dedup.length ∧
    (∀ x j : Int, BandMap.find (generateBandDictionary e).bandToIndex x = some j ↔
      ∃ i : Nat, j = (i : Int) ∧ e.bandList[i]? = some x ∧
        ∀ i2, i < i2 → e.bandList[i2]? ≠ some x) ∧
    (BandMap.values (generateBandDictionary e).bandToIndex).Nodup ∧
    (∀ j ∈ BandMap.values (generateBandDictionary e).bandToIndex,
      0 ≤ j ∧ j < (e.bandList.length : Int)) := by
  have hk := generateBandDictionary_keys_nodup e
  have hfind : ∀ kv ∈ (generateBandDictionary e).bandToIndex,
      BandMap.find (generateBandDictionary e).bandToIndex kv.1 = some kv.2 := by
    intro kv hkv
    exact BandMap.find_of_mem _ kv.1 kv.2 hk hkv
  refine ⟨generateBandDictionary_length e, generateBandDictionary_find e, ?_, ?_⟩
  · refine List.Nodup.map_on ?_ (List.Nodup.of_map Prod.fst hk)
    intro kv1 h1 kv2 h2 h12
    have f1 := hfind kv1 h1
    have f2 := hfind kv2 h2
    rw [h12] at f1
    exact Prod.ext (generateBandDictionary_find_inj e _ _ _ f1 f2) h12
  · intro j hj
    obtain ⟨kv, hkv, rfl⟩ := List.mem_map.1 hj
    obtain ⟨i, hi, hget, _⟩ := (generateBandDictionary_find e kv.1 kv.2).1 (hfind kv hkv)
    obtain ⟨hlt, _⟩ := List.getElem?_eq_some.1 hget
    omega

/-- C10: looking up a label in the map built by `generateBandDictionary` yields
`MissingBand` exactly when the label does not occur in the band list, and yields an index
exactly when it does. -/
theorem lookupBand_missing_iff (e : Exciton) (x : Int) :
    (lookupBand (generateBandDictionary e).bandToIndex x
        = Except.error LookupError.MissingBand ↔ x ∉ e.bandList) ∧
    ((∃ i : Int, lookupBand (generateBandDictionary e).bandToIndex x = Except.ok i) ↔
      x ∈ e.bandList) := by
  have h := BandMap.find_isSome (generateBandDictionary e).bandToIndex x
  rw [generateBandDictionary_mem_keys] at h
  unfold lookupBand
  cases hf : BandMap.find (generateBandDictionary e).bandToIndex x with
  | none =>
    rw [hf] at h
    simp only [Option.isSome_none, Bool.false_eq_true, false_iff] at h
    simp [h]
  | some j =>
    rw [hf] at h
    simp only [Option.isSome_some, true_iff] at h
    simp [h]

/-! ## Claims on the validated setters -/

/-- C11: a setter called with an input it rejects returns the state it was given:
`setUnitCells(n)` with `n ≤ 0`, `setCutoff(c)` with `c ≤ 0`, `setQ(Q)` with a vector of
length other than `3`, and `setBands(nBands, nRemoved)` with `nBands ≤ 0` or
`nRemoved ≤ 0`.  Each of them is a total function, so none of these calls fails. -/
theorem rejected_setters_keep_state (joinRows : List Int → List Int → List Int) (e : Exciton)
    (n : Int) (c : ℚ) (Q : List ℚ) (nBands nRemoved : Int)
    (hn : n ≤ 0) (hc : c ≤ 0) (hQ : Q.length ≠ 3) (hb : nBands ≤ 0 ∨ nRemoved ≤ 0) :
    (setUnitCells e n).1 = e ∧ (setCutoff e c).1 = e ∧ (setQ e Q).1 = e ∧
      (setBands2 joinRows e nBands nRemoved).1 = e := by
  refine ⟨?_, ?_, ?_, ?_⟩
  · have h : ¬ n > 0 := by omega
    simp [setUnitCells, h]
  · have h : ¬ c > 0 := not_lt.2 hc
    simp [setCutoff, h]
  · simp [setQ, hQ]
  · exact setBands2_rejected joinRows e nBands nRemoved (by omega)

/-- C11, at `setUnitCells(0)`, `setCutoff(-1)`, `setQ` of a 2-vector and `setBands(0, 1)`. -/
theorem rejected_setters_keep_state_witness :
    (setUnitCells sample 0).1 = sample ∧ (setCutoff sample (-1)).1 = sample ∧
      (setQ sample [1, 2]).1 = sample ∧
      (setBands2 (fun a b => a ++ b) sample 0 1).1 = sample :=
  rejected_setters_keep_state (fun a b => a ++ b) sample 0 (-1) [1, 2] 0 1 (by decide)
    (by norm_num) (by decide) (by decide)

/-- C12: for `c > 0`, `setCutoff(c)` stores `c` as the cutoff whether or not it exceeds the
cell count, leaves the cell count unchanged, and prints the warning exactly when
`c > ncell` (nothing otherwise); for `c ≤ 0` neither the cutoff nor the cell count
changes. -/
theorem setCutoff_accepts_with_warning (e : Exciton) (c : ℚ) :
    (0 < c → (setCutoff e c).1.cutoff_ = c ∧ (setCutoff e c).1.ncell_ = e.ncell_ ∧
      ((setCutoff e c).2 = ["Warning: cutoff is higher than number of unit cells"] ↔
        (e.ncell_ : ℚ) < c) ∧
      ((setCutoff e c).2 = [] ↔ c ≤ (e.ncell_ : ℚ))) ∧
    (c ≤ 0 → (setCutoff e c).1.cutoff_ = e.cutoff_ ∧ (setCutoff e c).1.ncell_ = e.ncell_) := by
  constructor
  · intro hc
    have h : c > 0 := hc
    by_cases hw : c > (e.ncell_ : ℚ)
    · have hw2 : ¬ c ≤ (e.ncell_ : ℚ) := not_le.2 hw
      simp [setCutoff, h, hw, hw2]
    · have hw2 : c ≤ (e.ncell_ : ℚ) := not_lt.1 hw
      simp [setCutoff, h, hw, hw2]
  · intro hc
    have h : ¬ c > 0 := not_lt.2 hc
    simp [setCutoff, h]

/-- C12, at cell count `10`: `setCutoff(15)` is accepted with the warning, `setCutoff(-1)`
is rejected and changes neither field. -/
theorem setCutoff_accepts_with_warning_witness :
    sample.ncell_ = 10 ∧
    ((setCutoff sample 15).1.cutoff_ = 15 ∧ (setCutoff sample 15).1.ncell_ = sample.ncell_ ∧
      ((setCutoff sample 15).2 = ["Warning: cutoff is higher than number of unit cells"] ↔
        (sample.ncell_ : ℚ) < 15) ∧
      ((setCutoff sample 15).2 = [] ↔ (15 : ℚ) ≤ (sample.ncell_ : ℚ))) ∧
    ((setCutoff sample (-1)).1.cutoff_ = sample.cutoff_ ∧
      (setCutoff sample (-1)).1.ncell_ = sample.ncell_) :=
  ⟨rfl, (setCutoff_accepts_with_warning sample 15).1 (by norm_num),
    (setCutoff_accepts_with_warning sample (-1)).2 (by norm_num)⟩

/-- C16: an accepted setter assigns its own member and nothing else: the member holds the
argument, and putting the old value of that member back gives the state before the call.
This holds for `setUnitCells(n)` with `n > 0`, `setQ(Q)` with `|Q| = 3`, `setScissor(shift)`
for every `shift`, negative ones included, and `setExchange(flag)`. -/
theorem accepted_setters_assign_own_field (e : Exciton) (n : Int) (Q : List ℚ) (shift : ℚ)
    (flag : Bool) (hn : 0 < n) (hQ : Q.length = 3) :
    ((setUnitCells e n).1.ncell_ = n ∧
      { (setUnitCells e n).1 with ncell_ := e.ncell_ } = e) ∧
    ((setQ e Q).1.Q_ = Q ∧ { (setQ e Q).1 with Q_ := e.Q_ } = e) ∧
    ((setScissor e shift).scissor_ = shift ∧
      { setScissor e shift with scissor_ := e.scissor_ } = e) ∧
    ((setExchange e flag).exchange = flag ∧
      { setExchange e flag with exchange := e.exchange } = e) := by
  have h : n > 0 := hn
  refine ⟨?_, ?_, ?_, ?_⟩
  · simp [setUnitCells, h]
  · simp [setQ, hQ]
  · simp [setScissor]
  · simp [setExchange]

/-- C16, at `setUnitCells(7)`, `setQ(1, 0, 2)`, `setScissor(-1/2)` and `setExchange(true)`. -/
theorem accepted_setters_assign_own_field_witness :
    ((setUnitCells sample 7).1.ncell_ = 7 ∧
      { (setUnitCells sample 7).1 with ncell_ := sample.ncell_ } = sample) ∧
    ((setQ sample [1, 0, 2]).1.Q_ = [1, 0, 2] ∧
      { (setQ sample [1, 0, 2]).1 with Q_ := sample.Q_ } = sample) ∧
    ((setScissor sample (-1 / 2)).scissor_ = -1 / 2 ∧
      { setScissor sample (-1 / 2) with scissor_ := sample.scissor_ } = sample) ∧
    ((setExchange sample true).exchange = true ∧
      { setExchange sample true with exchange := sample.exchange } = sample) :=
  accepted_setters_assign_own_field sample 7 [1, 0, 2] (-1 / 2) true (by decide) (by decide)

/-- C17, the code at Fermi level `5` and `setBands(2, 3)`: the call is accepted (nothing is
printed) and stores the descending runs `4, 3, 2` and `9, 8, 7`, three bands each. -/
theorem setBands2_removed_exceeds_bands :
    (setBands2 (fun a b => a ++ b) sample 2 3).2 = [] ∧
    (setBands2 (fun a b => a ++ b) sample 2 3).1.valenceBands_ = [4, 3, 2] ∧
    (setBands2 (fun a b => a ++ b) sample 2 3).1.conductionBands_ = [9, 8, 7] := by
  decide

/-! ## Lemmas on the recorded row writes -/

theorem writeRowsTraced_append (a b : List BasisState) (st : BasisTrace) :
    writeRowsTraced (a ++ b) st = (writeRowsTraced a st).bind (writeRowsTraced b) := by
  induction a generalizing st with
  | nil => simp [writeRowsTraced]
  | cons r a ih =>
    simp only [List.cons_append, writeRowsTraced]
    cases writeRowTraced st r with
    | none => simp
    | some st1 => simp [ih]

theorem valenceLoopTraced_eq (i c : Int) (V : List Int) (st : BasisTrace) :
    valenceLoopTraced i c V st = writeRowsTraced (V.map fun v => (v, c, i)) st := by
  induction V generalizing st with
  | nil => simp [valenceLoopTraced, writeRowsTraced]
  | cons v V ih =>
    simp only [valenceLoopTraced, List.map_cons, writeRowsTraced]
    cases writeRowTraced st (v, c, i) with
    | none => simp
    | some st1 => simp [ih]

theorem conductionLoopTraced_eq (i : Int) (V C : List Int) (st : BasisTrace) :
    conductionLoopTraced i V C st =
      writeRowsTraced (C.flatMap fun c => V.map fun v => (v, c, i)) st := by
  induction C generalizing st with
  | nil => simp [conductionLoopTraced, writeRowsTraced]
  | cons c C ih =>
    simp only [conductionLoopTraced, List.flatMap_cons, writeRowsTraced_append,
      valenceLoopTraced_eq]
    cases writeRowsTraced (V.map fun v => (v, c, i)) st with
    | none => simp
    | some st1 => simp [ih]

theorem kLoopTraced_eq (C V : List Int) (ks : List Nat) (st : BasisTrace) :
    kLoopTraced C V ks st =
      writeRowsTraced
        (ks.flatMap fun (i : Nat) => C.flatMap fun c => V.map fun v => (v, c, (i : Int))) st := by
  induction ks generalizing st with
  | nil => simp [kLoopTraced, writeRowsTraced]
  | cons i ks ih =>
    simp only [kLoopTraced, List.flatMap_cons, writeRowsTraced_append, conductionLoopTraced_eq]
    cases writeRowsTraced (C.flatMap fun c => V.map fun v => (v, c, (i : Int))) st with
    | none => simp
    | some st1 => simp [ih]

theorem writeRowsTraced_eq (rows : List BasisState) (st : BasisLoop) (log : List Nat) :
    writeRowsTraced rows (st, log) =
      (writeRows rows st).map fun st1 => (st1, log ++ List.range' st.2 rows.length) := by
  induction rows generalizing st log with
  | nil => simp [writeRowsTraced, writeRows]
  | cons r rows ih =>
    simp only [writeRowsTraced, writeRows, writeRowTraced, writeRow]
    by_cases h : st.2 < st.1.length
    · simp only [h, if_true, Option.some_bind, ih]
      simp [List.range'_succ]
    · simp [h]

theorem createBasisTraced_eq (e : Exciton) (C V : List Int) :
    createBasisTraced e C V =
      (writeRows (basisRows e.system.nk.toNat C V)
        (List.replicate e.excitonbasisdim (0, 0, 0), 0)).map fun st1 =>
          (st1, List.range' 0 (e.system.nk.toNat * C.length * V.length)) := by
  unfold createBasisTraced
  simp only [kLoopTraced_eq]
  change writeRowsTraced (basisRows e.system.nk.toNat C V) _ = _
  rw [writeRowsTraced_eq, length_basisRows]
  simp

theorem createBasisTraced_of_dim (e : Exciton) (C V : List Int)
    (hdim : e.excitonbasisdim = e.system.nk.toNat * C.length * V.length) :
    createBasisTraced e C V =
      some ((basisRows e.system.nk.toNat C V, e.excitonbasisdim),
        List.range e.excitonbasisdim) := by
  rw [createBasisTraced_eq, writeRows_some]
  · simp [length_basisRows, hdim, List.range_eq_range']
  · simp [length_basisRows, hdim]

/-! ## Claim on the row writes of `createBasis` -/

/-- C19: when the stored dimension `excitonbasisdim` equals `nk * |C| * |V|` with `nk ≥ 0`,
the loops of `createBasis` finish without an out-of-bounds write, the counter ends at
`excitonbasisdim`, and the row writes are at the indices `0, 1, .., excitonbasisdim - 1` in
this order: every write is in bounds and every row is written exactly once.  The table is
the one `createBasis` returns. -/
theorem createBasis_writes_each_row_once (e : Exciton) (C V : List Int)
    (hnk : 0 ≤ e.system.nk)
    (hdim : (e.excitonbasisdim : Int) = e.system.nk * C.length * V.length) :
    ∃ states log, createBasisTraced e C V = some ((states, e.excitonbasisdim), log) ∧
      log = List.range e.excitonbasisdim ∧
      (∀ it ∈ log, it < e.excitonbasisdim) ∧
      (∀ it, it < e.excitonbasisdim → log.count it = 1) ∧
      (createBasis e C V).map Prod.fst = some states := by
  have hdim2 : e.excitonbasisdim = e.system.nk.toNat * C.length * V.length := by
    have h : ((e.system.nk.toNat * C.length * V.length : Nat) : Int)
        = (e.excitonbasisdim : Int) := by
      push_cast
      rw [Int.toNat_of_nonneg hnk]
      exact hdim.symm
    exact_mod_cast h.symm
  refine ⟨_, _, createBasisTraced_of_dim e C V hdim2, rfl, ?_, ?_, ?_⟩
  · intro it hit
    exact List.mem_range.1 hit
  · intro it hit
    exact List.count_eq_one_of_mem (List.nodup_range _) (List.mem_range.2 hit)
  · rw [createBasis_of_dim e C V hdim2]
    rfl

/-- C19, at `V = [4]`, `C = [6, 7]`, `nk = 2` and the stored dimension `4`: the writes are at
rows `0, 1, 2, 3` and the counter ends at `4`. -/
theorem createBasis_writes_each_row_once_witness :
    createBasisTraced sample [6, 7] [4]
        = some (([(4, 6, 0), (4, 7, 0), (4, 6, 1), (4, 7, 1)], 4), [0, 1, 2, 3]) ∧
      ∃ states log, createBasisTraced sample [6, 7] [4]
          = some ((states, sample.excitonbasisdim), log) ∧
        log = List.range sample.excitonbasisdim ∧
        (∀ it ∈ log, it < sample.excitonbasisdim) ∧
        (∀ it, it < sample.excitonbasisdim → log.count it = 1) ∧
        (createBasis sample [6, 7] [4]).map Prod.fst = some states :=
  ⟨by decide,
    createBasis_writes_each_row_once sample [6, 7] [4] (by decide) (by decide)⟩

/-! ## Lemmas on `fixGlobalPhase` -/

theorem fixGlobalPhaseLoop_apply {m n : Nat} (sums : Fin n → ℂ) (l : List (Fin n))
    (hl : l.Nodup) (coefs : CxMat m n) (i : Fin m) (j : Fin n) :
    fixGlobalPhaseLoop sums l coefs i j =
      if j ∈ l then coefs i j * Complex.exp (-Complex.I * ((Complex.arg (sums j) : ℝ) : ℂ))
      else coefs i j := by
  induction l generalizing coefs with
  | nil => simp [fixGlobalPhaseLoop]
  | cons a l ih =>
    rw [List.nodup_cons] at hl
    simp only [fixGlobalPhaseLoop, ih hl.2, List.mem_cons]
    by_cases hja : j = a
    · subst hja
      simp [hl.1, scaleCol]
    · by_cases hjl : j ∈ l
      · simp [hja, hjl, scaleCol]
      · simp [hja, hjl, scaleCol]

theorem fixGlobalPhase_apply {m n : Nat} (coefs : CxMat m n) (i : Fin m) (j : Fin n) :
    fixGlobalPhase coefs i j =
      coefs i j * Complex.exp (-Complex.I * ((Complex.arg (∑ i2, coefs i2 j) : ℝ) : ℂ)) := by
  unfold fixGlobalPhase
  simp only [fixGlobalPhaseLoop_apply _ _ (List.nodup_finRange n), List.mem_finRange, if_true,
    colSums]

theorem mul_exp_neg_arg (s : ℂ) :
    s * Complex.exp (-Complex.I * ((Complex.arg s : ℝ) : ℂ)) = ((Complex.abs s : ℝ) : ℂ) := by
  have h := Complex.abs_mul_exp_arg_mul_I s
  have h2 : -Complex.I * ((Complex.arg s : ℝ) : ℂ) = -(((Complex.arg s : ℝ) : ℂ) * Complex.I) := by
    ring
  rw [h2, Complex.exp_neg]
  nth_rewrite 1 [← h]
  rw [mul_assoc, mul_inv_cancel₀ (Complex.exp_ne_zero _), mul_one]

theorem fixGlobalPhase_colSum {m n : Nat} (coefs : CxMat m n) (j : Fin n) :
    ∑ i, fixGlobalPhase coefs i j = ((Complex.abs (∑ i, coefs i j) : ℝ) : ℂ) := by
  simp only [fixGlobalPhase_apply]
  rw [← Finset.sum_mul, mul_exp_neg_arg]

theorem abs_exp_neg_I_mul (r : ℝ) : Complex.abs (Complex.exp (-Complex.I * (r : ℂ))) = 1 := by
  rw [Complex.abs_exp]
  simp

/-! ## Claims on `fixGlobalPhase` -/

/-- C13: for a column whose component sum `s` is non-zero, after `fixGlobalPhase` the
component sum of that column is `|s|`: its imaginary part is `0` and its real part is
positive. -/
theorem fixGlobalPhase_sum_is_modulus {m n : Nat} (coefs : CxMat m n) (j : Fin n)
    (hs : ∑ i, coefs i j ≠ 0) :
    ∑ i, fixGlobalPhase coefs i j = ((Complex.abs (∑ i, coefs i j) : ℝ) : ℂ) ∧
      (∑ i, fixGlobalPhase coefs i j).im = 0 ∧ 0 < (∑ i, fixGlobalPhase coefs i j).re := by
  rw [fixGlobalPhase_colSum]
  refine ⟨rfl, Complex.ofReal_im _, ?_⟩
  rw [Complex.ofReal_re]
  exact AbsoluteValue.pos Complex.abs hs

/-- C13, at the column `1 + i, -1 + i`: its sum is `2i` and after fixing the sum is `2`. -/
theorem fixGlobalPhase_sum_is_modulus_witness :
    ∑ i, sampleColumn i 0 = 2 * Complex.I ∧ ∑ i, fixGlobalPhase sampleColumn i 0 = 2 := by
  have hsum : ∑ i, sampleColumn i 0 = 2 * Complex.I := by
    simp [sampleColumn, Fin.sum_univ_two]
    ring
  refine ⟨hsum, ?_⟩
  have h := (fixGlobalPhase_sum_is_modulus sampleColumn 0 (by rw [hsum]; simp)).1
  rw [h, hsum]
  simp

/-- C14: `fixGlobalPhase` is idempotent: applying it to its own result changes nothing. -/
theorem fixGlobalPhase_idempotent {m n : Nat} (coefs : CxMat m n) :
    fixGlobalPhase (fixGlobalPhase coefs) = fixGlobalPhase coefs := by
  funext i j
  rw [fixGlobalPhase_apply (fixGlobalPhase coefs), fixGlobalPhase_colSum,
    Complex.arg_ofReal_of_nonneg (AbsoluteValue.nonneg _ _)]
  simp

/-- C15: a column whose component sum is exactly zero is returned unchanged (`arg 0 = 0`,
so it is multiplied by `1`), while every column `j2`, this one included, is multiplied by
`exp(-i * arg(s))` for its own sum `s` and ends with the component sum `|s|`.
`fixGlobalPhase` is a total function, so the call does not fail. -/
theorem fixGlobalPhase_zero_sum_column {m n : Nat} (coefs : CxMat m n) (j : Fin n)
    (hs : ∑ i, coefs i j = 0) :
    (∀ i, fixGlobalPhase coefs i j = coefs i j) ∧
    (∀ i j2, fixGlobalPhase coefs i j2 =
      coefs i j2 * Complex.exp (-Complex.I * ((Complex.arg (∑ i2, coefs i2 j2) : ℝ) : ℂ))) ∧
    (∀ j2, ∑ i, fixGlobalPhase coefs i j2 = ((Complex.abs (∑ i, coefs i j2) : ℝ) : ℂ)) := by
  refine ⟨?_, fixGlobalPhase_apply coefs, fixGlobalPhase_colSum coefs⟩
  intro i
  rw [fixGlobalPhase_apply, hs, Complex.arg_zero]
  simp

/-- C15, at the matrix with the columns `1, -1` and `i, i`: the first column has sum zero
and is unchanged, the second ends with the sum `2`. -/
theorem fixGlobalPhase_zero_sum_column_witness :
    ∑ i, sampleZeroSum i 0 = 0 ∧
    (∀ i, fixGlobalPhase sampleZeroSum i 0 = sampleZeroSum i 0) ∧
    ∑ i, fixGlobalPhase sampleZeroSum i 1 = 2 := by
  have hsum : ∑ i, sampleZeroSum i 0 = 0 := by
    simp [sampleZeroSum, Fin.sum_univ_two]
  have hsum1 : ∑ i, sampleZeroSum i 1 = 2 * Complex.I := by
    simp [sampleZeroSum, Fin.sum_univ_two, two_mul]
  have h := fixGlobalPhase_zero_sum_column sampleZeroSum 0 hsum
  refine ⟨hsum, h.1, ?_⟩
  rw [h.2.2 1, hsum1]
  simp

/-- C18: column `j` of `fixGlobalPhase(M)` depends only on column `j` of `M`: two matrices
with the same number of rows that agree on column `j` have results that agree on column
`j`, whatever their other columns, and however many of them there are. -/
theorem fixGlobalPhase_column_independent {m n n2 : Nat} (M : CxMat m n) (M2 : CxMat m n2)
    (j : Nat) (hj : j < n) (hj2 : j < n2) (h : ∀ i, M i ⟨j, hj⟩ = M2 i ⟨j, hj2⟩) :
    ∀ i, fixGlobalPhase M i ⟨j, hj⟩ = fixGlobalPhase M2 i ⟨j, hj2⟩ := by
  intro i
  rw [fixGlobalPhase_apply, fixGlobalPhase_apply]
  simp only [h]

/-- C18, at the one-column matrix `1 + i, -1 + i` and the two-column matrix with the same
first column. -/
theorem fixGlobalPhase_column_independent_witness :
    (∀ i, sampleColumn i ⟨0, by decide⟩ = sampleColumnPadded i ⟨0, by decide⟩) ∧
    ∀ i, fixGlobalPhase sampleColumn i ⟨0, by decide⟩
      = fixGlobalPhase sampleColumnPadded i ⟨0, by decide⟩ :=
  ⟨fun i => by simp [sampleColumnPadded],
    fixGlobalPhase_column_independent sampleColumn sampleColumnPadded 0 (by decide) (by decide)
      (fun i => by simp [sampleColumnPadded])⟩

/-- C20: `fixGlobalPhase` keeps the modulus of every entry: `|fixGlobalPhase(M)(i, j)|` is
`|M(i, j)|` at every position, the result having the rows and columns of `M`; so the sum
of the squared moduli of each column (its squared norm) is unchanged. -/
theorem fixGlobalPhase_preserves_modulus {m n : Nat} (coefs : CxMat m n) :
    (∀ i j, Complex.abs (fixGlobalPhase coefs i j) = Complex.abs (coefs i j)) ∧
    (∀ j, ∑ i, Complex.abs (fixGlobalPhase coefs i j) ^ 2
      = ∑ i, Complex.abs (coefs i j) ^ 2) := by
  have h : ∀ i j, Complex.abs (fixGlobalPhase coefs i j) = Complex.abs (coefs i j) := by
    intro i j
    rw [fixGlobalPhase_apply, map_mul, abs_exp_neg_I_mul, mul_one]
  refine ⟨h, ?_⟩
  intro j
  simp only [h]

end xatu
